import Mathlib

/-!
Verification of the projsearch core: a shallow embedding of the
best-result filter (`output.py`), the time-budgeted minimisation driver,
the randomised restart sampler, the orthonormal-basis builder and the
infidelity objective (`run.py` / `target.py`), together with theorems
settling the specified properties.
-/

namespace ProjSearch

/-! ## Best-Result Filter (`output.py`, class `filter_results`) -/

/-- An optimisation outcome as consumed by `filter_results.__call__`:
`success` models `optimise_result.success` and `fval` models
`optimise_result.fun` (the objective value), generic in the value type
just as the Python filter is. -/
structure OptResult (A : Type) where
  success : Bool
  fval : A
deriving DecidableEq

/-- The observable effect of one invocation of the filter: which of the
two callbacks (if either) was invoked, and with which outcome. -/
inductive FilterEvent (A : Type) where
  | success (r : OptResult A)
  | failure (r : OptResult A)
  | quiet
deriving DecidableEq

/-- One invocation of `filter_results.__call__`.  `cmp` models the
`compare` field, `hasFailureCallback` whether a `failure_callback` was
provided, `best` the current `best_value` slot.  Returns the updated
`best_value` together with the callback event. -/
def filter_results_call {A : Type} (cmp : A → A → Bool) (hasFailureCallback : Bool)
    (best : Option A) (r : OptResult A) : Option A × FilterEvent A :=
  if !r.success then (best, FilterEvent.quiet)
  else
    match best with
    | none => (some r.fval, FilterEvent.success r)
    | some b =>
      if cmp r.fval b then (some r.fval, FilterEvent.success r)
      else if hasFailureCallback then (best, FilterEvent.failure r)
      else (best, FilterEvent.quiet)

/-- The default `compare` of `filter_results.__init__`:
`lambda x, y: x <= y`. -/
def defaultCompare (x y : ℚ) : Bool := decide (x ≤ y)

/-- Feed a list of outcomes through the filter in order, starting from
the given `best_value` slot, collecting the final slot and the event of
each invocation. -/
def runFilter {A : Type} (cmp : A → A → Bool) (hasFailureCallback : Bool) :
    Option A → List (OptResult A) → Option A × List (FilterEvent A)
  | best, [] => (best, [])
  | best, r :: rs =>
    let step := filter_results_call cmp hasFailureCallback best r
    let rest := runFilter cmp hasFailureCallback step.1 rs
    (rest.1, step.2 :: rest.2)

/-- The values for which the success callback fired, in order. -/
def successValues {A : Type} (evs : List (FilterEvent A)) : List A :=
  evs.filterMap fun e =>
    match e with
    | FilterEvent.success r => some r.fval
    | _ => none

/-- The values for which the failure callback fired, in order. -/
def failureValues {A : Type} (evs : List (FilterEvent A)) : List A :=
  evs.filterMap fun e =>
    match e with
    | FilterEvent.failure r => some r.fval
    | _ => none

/-- The outcome stream of the C4 scenario: infidelities
`[0.5, 0.5, 0.3, 0.9, 0.1]`, all with `success = true`. -/
def c4Outcomes : List (OptResult ℚ) :=
  [⟨true, 1/2⟩, ⟨true, 1/2⟩, ⟨true, 3/10⟩, ⟨true, 9/10⟩, ⟨true, 1/10⟩]

/-! ## Anytime optimiser (`run.py`, `minimise_over_time`) -/

/-- The `while time.clock() - start < time_limit` loop of
`minimise_over_time`, counting how many attempts run (each attempt is one
`scipy.optimize.minimize` call followed by one synchronous `callback`
invocation).  `clock` gives the value returned by the successive calls to
`time.clock()` (call `tick` is the `tick`-th reading), `start` the reading
taken before the loop, and `fuel` bounds the number of iterations so the
model is total. -/
def minimiseLoop (clock : ℕ → ℚ) (start tlimit : ℚ) : ℕ → ℕ → ℕ
  | _, 0 => 0
  | tick, fuel + 1 =>
    if clock tick - start < tlimit then minimiseLoop clock start tlimit (tick + 1) fuel + 1
    else 0

/-- `minimise_over_time` modelled as the number of attempts performed
(equally, the number of `callback` invocations): the first clock reading
is `clock 0` (the `start = time.clock()` line) and reading `1, 2, ...`
are the successive loop-condition checks. -/
def minimise_over_time (clock : ℕ → ℚ) (tlimit : ℚ) (fuel : ℕ) : ℕ :=
  minimiseLoop clock (clock 0) tlimit 1 fuel

/-! ## Restart sampler (`run.py`, `_maximums_generator` and `_make_random`) -/

/-- The Rabi-frequency dictionary built by `_make_random.__init__`:
`orders = set(map(abs, run_params.sequence))` and
`rabi = dict((x, laser.rabi_mod(0, x)) for x in orders)`, modelled as an
association list keyed by the distinct absolute orders.  `rabi_mod x`
models `run_params.laser.rabi_mod(0, x)`. -/
def rabiDict (sequence : List ℤ) (rabi_mod : ℤ → ℝ) : List (ℤ × ℝ) :=
  ((sequence.map fun s => |s|).dedup).map fun x => (x, rabi_mod x)

/-- `_maximums_generator`: for each sideband of the sequence, in order,
yield `2π·nperiods / rabi[abs(sideband)]` then `2π`.  A missing key in the
`rabi` dictionary is Python's `KeyError`, modelled as `none`. -/
noncomputable def maximums_generator : List ℤ → List (ℤ × ℝ) → ℝ → Option (List ℝ)
  | [], _, _ => some []
  | sideband :: rest, rabi, nperiods =>
    match List.lookup |sideband| rabi with
    | none => none
    | some r =>
      (maximums_generator rest rabi nperiods).map
        fun tail => 2 * Real.pi * nperiods / r :: 2 * Real.pi :: tail

/-- One call of `_make_random.__call__`:
`np.array([np.random.uniform(0.0, max) for max in self.max])`.  The
randomness source is modelled by `unif`, where `unif i m` is the value of
the `i`-th fresh uniform draw from `[0, m)` of this call. -/
def make_random_call (unif : ℕ → ℝ → ℝ) (maxs : List ℝ) : List ℝ :=
  maxs.enum.map fun p => unif p.1 p.2

/-! ## Infidelity objective (`run.py` lines 115-152, `target`) -/

/-- The squared Euclidean norm of a state vector, `state.norm() ** 2` in
qutip terms. -/
noncomputable def normSq {n : ℕ} (v : Fin n → ℂ) : ℝ := ∑ i, Complex.normSq (v i)

/-- The complex inner product `⟨v|w⟩`, i.e. `(v.dag() * w).data[0, 0]`
for qutip kets. -/
noncomputable def cinner {n : ℕ} (v w : Fin n → ℂ) : ℂ := ∑ i, star (v i) * w i

/-- The capability surface of `iontools.Sequence` that `target` uses:
`op params` is the composed sequence operator `U(params)` and
`d_op params` its list of per-parameter derivative operators. -/
structure PulseSequence (n : ℕ) where
  op : List ℝ → Matrix (Fin n) (Fin n) ℂ
  d_op : List ℝ → List (Matrix (Fin n) (Fin n) ℂ)

/-- The data in scope inside `target` just before `func` is defined:
`states` is the orthonormal basis (state 0 the target, `nd` distractors
after it), `e_bra`/`g_bra` the two branch projectors obtained from
`it.state.qubit_projectors(states[0])`, and `seq` the pulse sequence. -/
structure TargetInputs (n : ℕ) where
  nd : ℕ
  states : Fin (nd + 1) → Fin n → ℂ
  e_bra : Matrix (Fin n) (Fin n) ℂ
  g_bra : Matrix (Fin n) (Fin n) ℂ
  seq : PulseSequence n

/-- `scale = 1.0 / len(states)`. -/
noncomputable def scale {n : ℕ} (T : TargetInputs n) : ℝ := 1 / (T.nd + 1)

/-- `bras = np.array([g_bra] + [e_bra] * (len(states) - 1))`: role 0 (the
target state) is paired with the ground projector, all other roles with
the excited projector. -/
noncomputable def bras {n : ℕ} (T : TargetInputs n) :
    Fin (T.nd + 1) → Matrix (Fin n) (Fin n) ℂ :=
  fun r => if r = 0 then T.g_bra else T.e_bra

/-- The accumulated `infid` value of `func`:
`(g_bra * op * states[0]).norm() ** 2` plus one
`(e_bra * op * states[i + 1]).norm() ** 2` term per distractor. -/
noncomputable def infid {n : ℕ} (T : TargetInputs n) (params : List ℝ) : ℝ :=
  normSq (T.g_bra.mulVec ((T.seq.op params).mulVec (T.states 0)))
    + ∑ i : Fin T.nd, normSq (T.e_bra.mulVec ((T.seq.op params).mulVec (T.states i.succ)))

/-- Role `r`-th entry of `op_proj = bras * op * states`: the projection
of `U(params)·states[r]` onto role `r`'s branch, computed once and reused
across the per-parameter derivative loop. -/
noncomputable def op_proj {n : ℕ} (T : TargetInputs n) (params : List ℝ)
    (r : Fin (T.nd + 1)) : Fin n → ℂ :=
  (bras T r).mulVec ((T.seq.op params).mulVec (T.states r))

/-- The inner loop body of the derivative computation for one derivative
operator `d_op`:
`for (oper, d_oper) in zip(op_proj, bras * d_op * states): deriv[i] += 2 * np.real((oper.dag() * d_oper).data[0, 0])`,
i.e. the total added to `deriv[i]`. -/
noncomputable def derivInner {n : ℕ} (T : TargetInputs n) (params : List ℝ)
    (dop : Matrix (Fin n) (Fin n) ℂ) : ℝ :=
  ∑ r : Fin (T.nd + 1),
    2 * (cinner (op_proj T params r) ((bras T r).mulVec (dop.mulVec (T.states r)))).re

/-- The outer loop `for (i, d_op) in enumerate(sequence.d_op(params))`,
accumulating `f d_op` into slot `i` of the array `acc`, with `i` the
running `enumerate` counter. -/
def accumDeriv {n : ℕ} (f : Matrix (Fin n) (Fin n) ℂ → ℝ) :
    ℕ → List (Matrix (Fin n) (Fin n) ℂ) → List ℝ → List ℝ
  | _, [], acc => acc
  | i, d :: ds, acc => accumDeriv f (i + 1) ds (acc.set i (acc.getD i 0 + f d))

/-- The full `deriv` array of `func`: starts at `np.zeros_like(params)`
and accumulates the role sum for each derivative operator in turn. -/
noncomputable def deriv {n : ℕ} (T : TargetInputs n) (params : List ℝ) : List ℝ :=
  accumDeriv (derivInner T params) 0 (T.seq.d_op params) (List.replicate params.length 0)

/-- The pair returned by `func` when `with_derivative` is true:
`(infid * scale, deriv * scale)`. -/
noncomputable def targetFunc {n : ℕ} (T : TargetInputs n) (params : List ℝ) :
    ℝ × List ℝ :=
  (infid T params * scale T, (deriv T params).map (· * scale T))

/-- The function `func` returned by `target(run_params, with_derivative)`:
when `with_derivative` is false only the scalar `infid * scale` is
returned (left injection), otherwise the (infidelity, gradient) pair
(right injection). -/
noncomputable def target {n : ℕ} (T : TargetInputs n) (with_derivative : Bool)
    (params : List ℝ) : ℝ ⊕ (ℝ × List ℝ) :=
  if with_derivative then Sum.inr (targetFunc T params)
  else Sum.inl (infid T params * scale T)

/-! ## Basis builder (`run.py` lines 74-94 / `target.py` lines 30-50,
`orthonormal_basis`).  Modelled in the coordinates of the populated-label
subspace; the external pieces (`it.state.populated_elements`,
`it.state.element`, `scipy.linalg.qr`) enter through the `values` vector
of populated amplitudes and through hypotheses stating the QR contract. -/

/-- The matrix handed to `scipy.linalg.qr`:
`np.array([values] + others).T`.  Column 0 holds the populated amplitudes
of the target state; column `j ≥ 1` is the elementary basis vector of the
`j`-th populated label (what `it.state.element` extracts from the
`linear_independent_set` kets). -/
def basisMatrix {m : ℕ} (values : Fin (m + 1) → ℂ) :
    Matrix (Fin (m + 1)) (Fin (m + 1)) ℂ :=
  fun i j => if j = 0 then values i else if i = j then 1 else 0

/-- Row `r` of `vecs = -scipy.linalg.qr(...)[0].T`: the populated-label
coordinates of output state `r`. -/
def orthonormal_basis_vec {m : ℕ} (Q : Matrix (Fin (m + 1)) (Fin (m + 1)) ℂ) :
    Fin (m + 1) → Fin (m + 1) → ℂ :=
  fun r i => -(Q i r)

/-- The array of output states of `orthonormal_basis`, one per row of
`-Q.T`, in populated-label coordinates. -/
def orthonormal_basis_out {m : ℕ} (Q : Matrix (Fin (m + 1)) (Fin (m + 1)) ℂ) :
    List (Fin (m + 1) → ℂ) :=
  List.ofFn (orthonormal_basis_vec Q)

/-! ## Helper lemmas -/

lemma lookup_map_self {f : ℤ → ℝ} (l : List ℤ) (k : ℤ) (h : k ∈ l) :
    List.lookup k (l.map fun x => (x, f x)) = some (f k) := by
  induction l with
  | nil => cases h
  | cons a t ih =>
    rw [List.map_cons, List.lookup_cons]
    by_cases hk : k = a
    · subst hk
      simp
    · rw [beq_false_of_ne hk]
      have h1 : k ∈ t := by
        rcases List.mem_cons.mp h with h2 | h2
        · exact absurd h2 hk
        · exact h2
      exact ih h1

lemma rabiDict_lookup (sequence : List ℤ) (rabi_mod : ℤ → ℝ) (sb : ℤ)
    (h : sb ∈ sequence) :
    List.lookup |sb| (rabiDict sequence rabi_mod) = some (rabi_mod |sb|) := by
  apply lookup_map_self
  rw [List.mem_dedup]
  exact List.mem_map.mpr ⟨sb, h, rfl⟩

lemma maximums_generator_eq (d : List (ℤ × ℝ)) (f : ℤ → ℝ) (np : ℝ) :
    ∀ (sequence : List ℤ),
      (∀ sb ∈ sequence, List.lookup |sb| d = some (f |sb|)) →
      maximums_generator sequence d np
        = some (sequence.flatMap fun sb => [2 * Real.pi * np / f |sb|, 2 * Real.pi])
  | [], _ => rfl
  | a :: t, hd => by
    have ha := hd a (List.mem_cons_self a t)
    have ih := maximums_generator_eq d f np t
      (fun sb hsb => hd sb (List.mem_cons_of_mem a hsb))
    rw [maximums_generator, ha, ih]
    simp [List.flatMap_cons]

lemma make_random_call_length (unif : ℕ → ℝ → ℝ) (maxs : List ℝ) :
    (make_random_call unif maxs).length = maxs.length := by
  simp [make_random_call]

lemma make_random_call_getD (unif : ℕ → ℝ → ℝ) (maxs : List ℝ) (t : ℕ)
    (h : t < maxs.length) :
    (make_random_call unif maxs).getD t 0 = unif t (maxs.getD t 0) := by
  have h2 : t < (make_random_call unif maxs).length := by
    rw [make_random_call_length]; exact h
  rw [List.getD_eq_getElem _ _ h2, List.getD_eq_getElem _ _ h]
  simp [make_random_call]

lemma flatMap_pair_length (f g : ℤ → ℝ) (seq : List ℤ) :
    (seq.flatMap fun s => [f s, g s]).length = 2 * seq.length := by
  induction seq with
  | nil => rfl
  | cons a t ih =>
    simp only [List.flatMap_cons, List.length_append, List.length_cons, ih,
      List.length_nil]
    omega

lemma flatMap_pair_getD_even (f g : ℤ → ℝ) :
    ∀ (seq : List ℤ) (j : ℕ), j < seq.length →
      (seq.flatMap fun s => [f s, g s]).getD (2 * j) 0 = f (seq.getD j 0)
  | a :: t, 0, h => by
    simp [List.flatMap_cons]
  | a :: t, j + 1, h => by
    have h3 : j < t.length := by simpa using h
    have h5 : 2 * (j + 1) = 2 * j + 1 + 1 := by omega
    rw [List.flatMap_cons, h5]
    simp only [List.cons_append, List.nil_append, List.getD_cons_succ]
    rw [flatMap_pair_getD_even f g t j h3]

lemma flatMap_pair_getD_odd (f g : ℤ → ℝ) :
    ∀ (seq : List ℤ) (j : ℕ), j < seq.length →
      (seq.flatMap fun s => [f s, g s]).getD (2 * j + 1) 0 = g (seq.getD j 0)
  | a :: t, 0, h => by
    simp [List.flatMap_cons]
  | a :: t, j + 1, h => by
    have h3 : j < t.length := by simpa using h
    have h5 : 2 * (j + 1) + 1 = 2 * j + 1 + 1 + 1 := by omega
    rw [List.flatMap_cons, h5]
    simp only [List.cons_append, List.nil_append, List.getD_cons_succ]
    rw [flatMap_pair_getD_odd f g t j h3]

lemma bras_zero {n : ℕ} (T : TargetInputs n) : bras T 0 = T.g_bra := if_pos rfl

lemma bras_succ {n : ℕ} (T : TargetInputs n) (i : Fin T.nd) :
    bras T i.succ = T.e_bra := if_neg (Fin.succ_ne_zero i)

lemma normSq_nonneg {n : ℕ} (v : Fin n → ℂ) : 0 ≤ normSq v :=
  Finset.sum_nonneg fun i _ => Complex.normSq_nonneg (v i)

lemma normSq_zero_vec {n : ℕ} : normSq (0 : Fin n → ℂ) = 0 := by simp [normSq]

lemma accumDeriv_length {n : ℕ} (f : Matrix (Fin n) (Fin n) ℂ → ℝ) :
    ∀ (ds : List (Matrix (Fin n) (Fin n) ℂ)) (i : ℕ) (acc : List ℝ),
      (accumDeriv f i ds acc).length = acc.length
  | [], _, _ => rfl
  | d :: ds, i, acc => by
    rw [accumDeriv, accumDeriv_length f ds (i + 1) _, List.length_set]

lemma accumDeriv_getD_lt {n : ℕ} (f : Matrix (Fin n) (Fin n) ℂ → ℝ) :
    ∀ (ds : List (Matrix (Fin n) (Fin n) ℂ)) (i : ℕ) (acc : List ℝ) (j : ℕ), j < i →
      (accumDeriv f i ds acc).getD j 0 = acc.getD j 0
  | [], _, _, _, _ => rfl
  | d :: ds, i, acc, j, h => by
    rw [accumDeriv, accumDeriv_getD_lt f ds (i + 1) _ j (by omega)]
    rw [List.getD_eq_getElem?_getD, List.getElem?_set_ne (by omega),
      ← List.getD_eq_getElem?_getD]

lemma accumDeriv_getD {n : ℕ} (f : Matrix (Fin n) (Fin n) ℂ → ℝ) :
    ∀ (ds : List (Matrix (Fin n) (Fin n) ℂ)) (i : ℕ) (acc : List ℝ) (j : ℕ),
      j < ds.length → i + j < acc.length →
      (accumDeriv f i ds acc).getD (i + j) 0 = acc.getD (i + j) 0 + f (ds.getD j 0)
  | d :: ds, i, acc, 0, h, h2 => by
    rw [accumDeriv, accumDeriv_getD_lt f ds (i + 1) _ (i + 0) (by omega)]
    have hl : i + 0 < (acc.set i (acc.getD i 0 + f d)).length := by
      rw [List.length_set]; omega
    rw [List.getD_eq_getElem _ _ hl]
    simp only [Nat.add_zero] at hl ⊢
    rw [List.getElem_set_self]
    simp
  | d :: ds, i, acc, j + 1, h, h2 => by
    have h5 : i + (j + 1) = (i + 1) + j := by omega
    rw [accumDeriv, h5, accumDeriv_getD f ds (i + 1) _ j (by simpa using h)
      (by rw [List.length_set]; omega)]
    rw [List.getD_eq_getElem?_getD (acc.set i (acc.getD i 0 + f d)),
      List.getElem?_set_ne (by omega), ← List.getD_eq_getElem?_getD]
    simp [← h5]

lemma deriv_length {n : ℕ} (T : TargetInputs n) (params : List ℝ) :
    (deriv T params).length = params.length := by
  unfold deriv
  rw [accumDeriv_length, List.length_replicate]

lemma deriv_getD {n : ℕ} (T : TargetInputs n) (params : List ℝ)
    (hlen : (T.seq.d_op params).length = params.length) (j : ℕ)
    (hj : j < params.length) :
    (deriv T params).getD j 0 = derivInner T params ((T.seq.d_op params).getD j 0) := by
  unfold deriv
  have key := accumDeriv_getD (derivInner T params) (T.seq.d_op params) 0
    (List.replicate params.length 0) j (by rw [hlen]; exact hj)
    (by rw [List.length_replicate]; omega)
  simpa using key

/-- A one-dimensional sequence whose operator is the identity, used for
concrete witnesses. -/
noncomputable def trivSeq : PulseSequence 1 where
  op := fun _ => 1
  d_op := fun ps => ps.map fun _ => 1

/-- A concrete one-dimensional `TargetInputs` with a single unit-norm
basis state and zero projectors, used for concrete witnesses. -/
noncomputable def trivTarget : TargetInputs 1 where
  nd := 0
  states := fun _ _ => 1
  e_bra := 0
  g_bra := 0
  seq := trivSeq

lemma cinner_self_re {n : ℕ} (v : Fin n → ℂ) : (cinner v v).re = normSq v := by
  unfold cinner normSq
  rw [Complex.re_sum]
  refine Finset.sum_congr rfl fun i _ => ?_
  rw [Complex.star_def, mul_comm, Complex.mul_conj]
  simp

lemma qcols_orthonormal {m : ℕ} (Q : Matrix (Fin (m + 1)) (Fin (m + 1)) ℂ)
    (hQ : Q.conjTranspose * Q = 1) (r s : Fin (m + 1)) :
    cinner (fun i => Q i r) (fun i => Q i s) = if r = s then 1 else 0 := by
  have h : (Q.conjTranspose * Q) r s = cinner (fun i => Q i r) (fun i => Q i s) := by
    rw [Matrix.mul_apply]
    refine Finset.sum_congr rfl fun k _ => ?_
    rw [Matrix.conjTranspose_apply]
  rw [← h, hQ, Matrix.one_apply]

lemma vec_cinner {m : ℕ} (Q : Matrix (Fin (m + 1)) (Fin (m + 1)) ℂ) (r s : Fin (m + 1)) :
    cinner (orthonormal_basis_vec Q r) (orthonormal_basis_vec Q s)
      = cinner (fun i => Q i r) (fun i => Q i s) := by
  unfold cinner orthonormal_basis_vec
  refine Finset.sum_congr rfl fun i _ => ?_
  rw [star_neg]
  ring

lemma col0_eq {m : ℕ} (values : Fin (m + 1) → ℂ)
    (Q R : Matrix (Fin (m + 1)) (Fin (m + 1)) ℂ)
    (hQR : basisMatrix values = Q * R)
    (hR : ∀ i j : Fin (m + 1), (j : ℕ) < (i : ℕ) → R i j = 0) (i : Fin (m + 1)) :
    values i = Q i 0 * R 0 0 := by
  have h : values i = ∑ j, Q i j * R j 0 := by
    have h0 := congrFun (congrFun hQR i) 0
    simpa [basisMatrix, Matrix.mul_apply] using h0
  rw [h, Finset.sum_eq_single 0]
  · intro b _ hb
    have hbv : 0 < (b : ℕ) := by
      have h6 := Fin.pos_of_ne_zero hb
      simpa [Fin.lt_def] using h6
    rw [hR b 0 (by simpa using hbv), mul_zero]
  · intro habs
    exact absurd (Finset.mem_univ 0) habs

lemma R00_ne_zero {m : ℕ} (values : Fin (m + 1) → ℂ)
    (Q R : Matrix (Fin (m + 1)) (Fin (m + 1)) ℂ)
    (hQR : basisMatrix values = Q * R)
    (hR : ∀ i j : Fin (m + 1), (j : ℕ) < (i : ℕ) → R i j = 0)
    (hv0 : values 0 ≠ 0) : R 0 0 ≠ 0 := by
  intro h0
  apply hv0
  rw [col0_eq values Q R hQR hR 0, h0, mul_zero]

lemma normSq_values_eq {m : ℕ} (values : Fin (m + 1) → ℂ)
    (Q R : Matrix (Fin (m + 1)) (Fin (m + 1)) ℂ)
    (hQR : basisMatrix values = Q * R)
    (hQ : Q.conjTranspose * Q = 1)
    (hR : ∀ i j : Fin (m + 1), (j : ℕ) < (i : ℕ) → R i j = 0) :
    normSq values = Complex.normSq (R 0 0) := by
  have hcols : (∑ i, Complex.normSq (Q i 0)) = 1 := by
    have h1 := qcols_orthonormal Q hQ 0 0
    rw [if_pos rfl] at h1
    have h2 := cinner_self_re (fun i => Q i 0)
    rw [h1] at h2
    simpa [normSq] using h2.symm
  unfold normSq
  calc ∑ i, Complex.normSq (values i)
      = ∑ i, Complex.normSq (Q i 0) * Complex.normSq (R 0 0) := by
        refine Finset.sum_congr rfl fun i _ => ?_
        rw [col0_eq values Q R hQR hR i, Complex.normSq_mul]
    _ = (∑ i, Complex.normSq (Q i 0)) * Complex.normSq (R 0 0) := by
        rw [Finset.sum_mul]
    _ = Complex.normSq (R 0 0) := by rw [hcols, one_mul]

/-! ## Theorems about the filter and the anytime loop -/

/-- Claim C8: for every filter state and every outcome whose success flag
is false, invoking the Best-Result Filter fires neither the success
callback nor the failure callback and leaves the recorded best value
unchanged. -/
theorem c8_unsuccessful_outcome_ignored {A : Type} (cmp : A → A → Bool)
    (hasF : Bool) (best : Option A) (r : OptResult A) (h : r.success = false) :
    filter_results_call cmp hasF best r = (best, FilterEvent.quiet) := by
  simp [filter_results_call, h]

/-- Witness for C8 at a concrete state and outcome. -/
theorem c8_unsuccessful_outcome_ignored_witness :
    filter_results_call defaultCompare true (some (1/2)) ⟨false, 9/10⟩
      = (some (1/2), FilterEvent.quiet) :=
  c8_unsuccessful_outcome_ignored defaultCompare true (some (1/2)) ⟨false, 9/10⟩ rfl

/-- Claim C4, counterexample: with the code's default comparator
(`lambda x, y: x <= y`, non-strict), feeding successful outcomes with
values `[0.5, 0.5, 0.3, 0.9, 0.1]` does NOT fire the success callback
exactly for `[0.5, 0.3, 0.1]` with failures `[0.5, 0.9]`: the tying
second `0.5` counts as an improvement. -/
theorem c4_default_filter_counterexample :
    ¬ (successValues (runFilter defaultCompare true none c4Outcomes).2
        = [1/2, 3/10, 1/10]
       ∧ failureValues (runFilter defaultCompare true none c4Outcomes).2
        = [1/2, 9/10]) := by
  norm_num [c4Outcomes, runFilter, filter_results_call, successValues, failureValues,
    defaultCompare, List.filterMap_cons, List.filterMap_nil]

/-- Claim C4 as amended: the default comparison is non-strict
less-than-or-equal, so a successful outcome that ties the recorded best
IS an improvement: feeding successful outcomes with values
`[0.5, 0.5, 0.3, 0.9, 0.1]` fires the success callback exactly for
`[0.5, 0.5, 0.3, 0.1]` and the failure callback exactly for `[0.9]`. -/
theorem c4_default_filter_ties_amended :
    successValues (runFilter defaultCompare true none c4Outcomes).2
      = [1/2, 1/2, 3/10, 1/10]
    ∧ failureValues (runFilter defaultCompare true none c4Outcomes).2 = [9/10] := by
  norm_num [c4Outcomes, runFilter, filter_results_call, successValues, failureValues,
    defaultCompare, List.filterMap_cons, List.filterMap_nil]

/-- Claim C5, counterexample: with a time budget of 0 (and a clock that
reads 0 on every call), `minimise_over_time` does NOT perform exactly one
attempt — the `while` condition is checked before the first attempt, so
it performs zero attempts and never invokes the callback. -/
theorem c5_zero_budget_counterexample :
    ¬ (minimise_over_time (fun _ => 0) 0 5 = 1) := by
  norm_num [minimise_over_time, minimiseLoop]

/-- Claim C5 as amended: for every monotone clock and every fuel bound,
calling `minimise_over_time` with a time budget of at most 0 performs
zero attempts and never invokes the callback, because the budget check
precedes the first attempt. -/
theorem c5_zero_budget_amended (clock : ℕ → ℚ) (fuel : ℕ)
    (hmono : Monotone clock) (tlimit : ℚ) (hl : tlimit ≤ 0) :
    minimise_over_time clock tlimit fuel = 0 := by
  unfold minimise_over_time
  cases fuel with
  | zero => rfl
  | succ n =>
    have h1 : ¬ (clock 1 - clock 0 < tlimit) := by
      have h2 : clock 0 ≤ clock 1 := hmono (by norm_num)
      intro h
      linarith
    simp [minimiseLoop, h1]

/-- Witness for the amended C5 at a concrete clock, fuel and budget. -/
theorem c5_zero_budget_amended_witness :
    minimise_over_time (fun _ => (0:ℚ)) 0 3 = 0 :=
  c5_zero_budget_amended (fun _ => 0) 3 monotone_const 0 le_rfl

/-- Claim C10: for every sequence of pulse orders, the Rabi-frequency
dictionary built by `_make_random.__init__` contains an entry for every
distinct absolute order in the sequence, so every lookup
`rabi[abs(sideband)]` performed by `_maximums_generator` succeeds and the
missing-key (`KeyError`) branch is unreachable. -/
theorem c10_rabi_dict_complete (sequence : List ℤ) (rabi_mod : ℤ → ℝ) (nperiods : ℝ) :
    (∀ sb ∈ sequence, List.lookup |sb| (rabiDict sequence rabi_mod) = some (rabi_mod |sb|))
    ∧ (maximums_generator sequence (rabiDict sequence rabi_mod) nperiods).isSome = true := by
  constructor
  · exact fun sb h => rabiDict_lookup sequence rabi_mod sb h
  · rw [maximums_generator_eq (rabiDict sequence rabi_mod) rabi_mod nperiods sequence
        (fun sb h => rabiDict_lookup sequence rabi_mod sb h)]
    rfl

/-- Witness for C10 at a concrete sequence `[1, -2]`. -/
theorem c10_rabi_dict_complete_witness :
    List.lookup |(-2 : ℤ)| (rabiDict [1, -2] (fun _ => (1:ℝ)))
      = some ((fun _ => (1:ℝ)) |(-2 : ℤ)|)
    ∧ (maximums_generator [1, -2] (rabiDict [1, -2] (fun _ => (1:ℝ))) 3).isSome = true :=
  ⟨(c10_rabi_dict_complete [1, -2] (fun _ => 1) 3).1 (-2) (by norm_num),
   (c10_rabi_dict_complete [1, -2] (fun _ => 1) 3).2⟩

/-- Claim C7: every call to the restart sampler returns a vector of
length `2 × |sequence|`, interleaved as one (duration, phase) pair per
pulse in sequence order, where the duration component for the pulse of
order `n` at position `j` is the fresh uniform draw from
`[0, nperiods·2π/rabi(|n|))` and every phase component is the fresh
uniform draw from `[0, 2π)`.  The uniform sampler is abstracted by
`unif`, constrained to land in `[0, m)` when drawing from `[0, m)`. -/
theorem c7_sampler_shape (sequence : List ℤ) (rabi_mod : ℤ → ℝ) (nperiods : ℝ)
    (unif : ℕ → ℝ → ℝ) (maxs : List ℝ)
    (hmax : maximums_generator sequence (rabiDict sequence rabi_mod) nperiods = some maxs)
    (hunif : ∀ i m, 0 < m → 0 ≤ unif i m ∧ unif i m < m)
    (hrabi : ∀ sb : ℤ, 0 < rabi_mod |sb|) (hnp : 0 < nperiods) :
    (make_random_call unif maxs).length = 2 * sequence.length
    ∧ ∀ j, j < sequence.length →
        ((make_random_call unif maxs).getD (2 * j) 0
            = unif (2 * j) (2 * Real.pi * nperiods / rabi_mod |sequence.getD j 0|)
          ∧ (make_random_call unif maxs).getD (2 * j + 1) 0
            = unif (2 * j + 1) (2 * Real.pi)
          ∧ 0 ≤ (make_random_call unif maxs).getD (2 * j) 0
          ∧ (make_random_call unif maxs).getD (2 * j) 0
              < 2 * Real.pi * nperiods / rabi_mod |sequence.getD j 0|
          ∧ 0 ≤ (make_random_call unif maxs).getD (2 * j + 1) 0
          ∧ (make_random_call unif maxs).getD (2 * j + 1) 0 < 2 * Real.pi) := by
  have hmax2 := maximums_generator_eq (rabiDict sequence rabi_mod) rabi_mod nperiods sequence
      (fun sb h => rabiDict_lookup sequence rabi_mod sb h)
  rw [hmax] at hmax2
  have hmaxs := Option.some_inj.mp hmax2
  have hlen : maxs.length = 2 * sequence.length := by
    rw [hmaxs]
    exact flatMap_pair_length (fun s => 2 * Real.pi * nperiods / rabi_mod |s|)
      (fun _ => 2 * Real.pi) sequence
  have hMd : 0 < 2 * Real.pi * nperiods := by
    have := Real.pi_pos
    positivity
  have hMp : (0:ℝ) < 2 * Real.pi := by
    have := Real.pi_pos
    linarith
  constructor
  · rw [make_random_call_length]
    exact hlen
  · intro j hj
    have h2j : 2 * j < maxs.length := by rw [hlen]; omega
    have h2j1 : 2 * j + 1 < maxs.length := by rw [hlen]; omega
    have e1 : maxs.getD (2 * j) 0
        = 2 * Real.pi * nperiods / rabi_mod |sequence.getD j 0| := by
      rw [hmaxs]
      exact flatMap_pair_getD_even (fun s => 2 * Real.pi * nperiods / rabi_mod |s|)
        (fun _ => 2 * Real.pi) sequence j hj
    have e2 : maxs.getD (2 * j + 1) 0 = 2 * Real.pi := by
      rw [hmaxs]
      exact flatMap_pair_getD_odd (fun s => 2 * Real.pi * nperiods / rabi_mod |s|)
        (fun _ => 2 * Real.pi) sequence j hj
    have hM : 0 < 2 * Real.pi * nperiods / rabi_mod |sequence.getD j 0| :=
      div_pos hMd (hrabi _)
    rw [make_random_call_getD unif maxs _ h2j, make_random_call_getD unif maxs _ h2j1,
      e1, e2]
    exact ⟨rfl, rfl, (hunif _ _ hM).1, (hunif _ _ hM).2, (hunif _ _ hMp).1,
      (hunif _ _ hMp).2⟩

/-- Witness for C7 at the one-pulse sequence `[1]`. -/
theorem c7_sampler_shape_witness :
    (make_random_call (fun _ _ => (0:ℝ)) [2 * Real.pi * 3 / 1, 2 * Real.pi]).length
      = 2 * ([(1:ℤ)] : List ℤ).length :=
  (c7_sampler_shape [(1:ℤ)] (fun _ => 1) 3 (fun _ _ => 0)
    [2 * Real.pi * 3 / 1, 2 * Real.pi]
    (by
      rw [maximums_generator_eq (rabiDict [(1:ℤ)] fun _ => 1) (fun _ => 1) 3 [(1:ℤ)]
        (fun sb h => rabiDict_lookup _ _ sb h)]
      norm_num)
    (fun i m hm => ⟨le_rfl, hm⟩)
    (fun sb => by norm_num)
    (by norm_num)).1

/-- Claim C1: for every basis of unit-norm states (in particular every
orthonormal basis), norm-preserving sequence operator and
norm-nonincreasing branch projectors, the objective returned by `target`
computes infidelity equal to `(1/k)` times the sum over roles of the
squared norm of `projector(role)·U(params)·basis[role]` (with
`k = nd + 1` basis states), this infidelity lies in `[0, 1]`, and it is
`0` for a perfectly separating sequence (one whose role projections all
vanish). -/
theorem c1_infidelity_average_and_bounds {n : ℕ} (T : TargetInputs n) (params : List ℝ)
    (hU : ∀ v, normSq ((T.seq.op params).mulVec v) = normSq v)
    (hg : ∀ v, normSq (T.g_bra.mulVec v) ≤ normSq v)
    (he : ∀ v, normSq (T.e_bra.mulVec v) ≤ normSq v)
    (hnorm : ∀ r, normSq (T.states r) = 1) :
    (targetFunc T params).1
      = (1 / ((T.nd : ℝ) + 1)) * ∑ r : Fin (T.nd + 1), normSq (op_proj T params r)
    ∧ 0 ≤ (targetFunc T params).1
    ∧ (targetFunc T params).1 ≤ 1
    ∧ ((∀ r, op_proj T params r = 0) → (targetFunc T params).1 = 0) := by
  have hsum : ∑ r : Fin (T.nd + 1), normSq (op_proj T params r) = infid T params := by
    rw [Fin.sum_univ_succ]
    rfl
  have heq : (targetFunc T params).1
      = (1 / ((T.nd : ℝ) + 1)) * ∑ r : Fin (T.nd + 1), normSq (op_proj T params r) := by
    rw [hsum]
    show infid T params * scale T = _
    unfold scale
    ring
  have hsum_nonneg : 0 ≤ ∑ r : Fin (T.nd + 1), normSq (op_proj T params r) :=
    Finset.sum_nonneg fun r _ => normSq_nonneg _
  refine ⟨heq, ?_, ?_, ?_⟩
  · rw [heq]
    apply mul_nonneg (by positivity) hsum_nonneg
  · rw [heq]
    have hterm : ∀ r : Fin (T.nd + 1), normSq (op_proj T params r) ≤ 1 := by
      intro r
      have h1 : normSq ((bras T r).mulVec ((T.seq.op params).mulVec (T.states r)))
          ≤ normSq ((T.seq.op params).mulVec (T.states r)) := by
        unfold bras
        split
        · exact hg _
        · exact he _
      calc normSq (op_proj T params r)
          ≤ normSq ((T.seq.op params).mulVec (T.states r)) := h1
        _ = normSq (T.states r) := hU _
        _ = 1 := hnorm r
    have hsum_le : ∑ r : Fin (T.nd + 1), normSq (op_proj T params r) ≤ (T.nd : ℝ) + 1 := by
      calc ∑ r : Fin (T.nd + 1), normSq (op_proj T params r)
          ≤ ∑ _r : Fin (T.nd + 1), (1 : ℝ) := Finset.sum_le_sum fun r _ => hterm r
        _ = (T.nd : ℝ) + 1 := by
            rw [Finset.sum_const, Finset.card_univ]
            simp
    have hpos : (0 : ℝ) < (T.nd : ℝ) + 1 := by positivity
    calc (1 / ((T.nd : ℝ) + 1)) * ∑ r : Fin (T.nd + 1), normSq (op_proj T params r)
        ≤ (1 / ((T.nd : ℝ) + 1)) * ((T.nd : ℝ) + 1) :=
          mul_le_mul_of_nonneg_left hsum_le (by positivity)
      _ = 1 := by field_simp
  · intro hzero
    rw [heq]
    have hz : ∑ r : Fin (T.nd + 1), normSq (op_proj T params r) = 0 := by
      refine Finset.sum_eq_zero fun r _ => ?_
      rw [hzero r, normSq_zero_vec]
    rw [hz, mul_zero]

/-- Claim C2: whenever the sequence supplies one derivative operator per
parameter, the gradient returned by the objective has the same length as
the parameter vector, and its `j`-th component equals
`2·scale·Σ_role Re(⟨role_projection | projector(role)·(∂_j U)·basis[role]⟩)`
with `role_projection = projector(role)·U(params)·basis[role]`. -/
theorem c2_gradient_components {n : ℕ} (T : TargetInputs n) (params : List ℝ)
    (hlen : (T.seq.d_op params).length = params.length) :
    (targetFunc T params).2.length = params.length
    ∧ ∀ j, j < params.length →
        (targetFunc T params).2.getD j 0
          = 2 * scale T * ∑ r : Fin (T.nd + 1),
              (cinner (op_proj T params r)
                ((bras T r).mulVec
                  (((T.seq.d_op params).getD j 0).mulVec (T.states r)))).re := by
  constructor
  · show ((deriv T params).map (· * scale T)).length = params.length
    rw [List.length_map, deriv_length]
  · intro j hj
    have hdl : (deriv T params).length = params.length := deriv_length T params
    have hj2 : j < ((deriv T params).map (· * scale T)).length := by
      rw [List.length_map, hdl]; exact hj
    show ((deriv T params).map (· * scale T)).getD j 0 = _
    rw [List.getD_eq_getElem _ _ hj2, List.getElem_map,
      ← List.getD_eq_getElem (deriv T params) 0 (by rw [hdl]; exact hj)]
    rw [deriv_getD T params hlen j hj]
    unfold derivInner
    rw [← Finset.mul_sum]
    ring

/-- Claim C6: in the objective built by `target`, the target role (basis
vector 0) is paired with the ground-branch projector `g_bra` and every
distractor role (basis vectors `1..k-1`) with the excited-branch
projector `e_bra`, both in the infidelity sum and in the per-operator
gradient sum. -/
theorem c6_projector_role_assignment {n : ℕ} (T : TargetInputs n) (params : List ℝ)
    (dop : Matrix (Fin n) (Fin n) ℂ) :
    (targetFunc T params).1 = scale T *
      (normSq (T.g_bra.mulVec ((T.seq.op params).mulVec (T.states 0)))
        + ∑ i : Fin T.nd, normSq (T.e_bra.mulVec ((T.seq.op params).mulVec (T.states i.succ))))
    ∧ derivInner T params dop
      = 2 * (cinner (T.g_bra.mulVec ((T.seq.op params).mulVec (T.states 0)))
            (T.g_bra.mulVec (dop.mulVec (T.states 0)))).re
        + ∑ i : Fin T.nd,
            2 * (cinner (T.e_bra.mulVec ((T.seq.op params).mulVec (T.states i.succ)))
              (T.e_bra.mulVec (dop.mulVec (T.states i.succ)))).re := by
  constructor
  · show infid T params * scale T = _
    unfold infid
    ring
  · unfold derivInner
    rw [Fin.sum_univ_succ]
    rfl

/-- Claim C9: for every input and parameter vector,
`target(run_params, with_derivative=False)` returns only the scalar
infidelity, and that scalar is the first component of the pair returned
by `target(run_params, with_derivative=True)`. -/
theorem c9_no_derivative_refinement {n : ℕ} (T : TargetInputs n) (params : List ℝ) :
    target T false params = Sum.inl ((targetFunc T params).1)
    ∧ target T true params = Sum.inr (targetFunc T params) :=
  ⟨rfl, rfl⟩

/-- Witness for C1 at a concrete one-state basis with identity operator. -/
theorem c1_infidelity_witness :
    (targetFunc trivTarget []).1
      = (1 / ((trivTarget.nd : ℝ) + 1))
          * ∑ r : Fin (trivTarget.nd + 1), normSq (op_proj trivTarget [] r)
    ∧ 0 ≤ (targetFunc trivTarget []).1
    ∧ (targetFunc trivTarget []).1 ≤ 1
    ∧ ((∀ r, op_proj trivTarget [] r = 0) → (targetFunc trivTarget []).1 = 0) :=
  c1_infidelity_average_and_bounds trivTarget []
    (by
      intro v
      show normSq ((1 : Matrix (Fin 1) (Fin 1) ℂ).mulVec v) = normSq v
      rw [Matrix.one_mulVec])
    (by
      intro v
      show normSq ((0 : Matrix (Fin 1) (Fin 1) ℂ).mulVec v) ≤ normSq v
      rw [Matrix.zero_mulVec, normSq_zero_vec]
      exact normSq_nonneg v)
    (by
      intro v
      show normSq ((0 : Matrix (Fin 1) (Fin 1) ℂ).mulVec v) ≤ normSq v
      rw [Matrix.zero_mulVec, normSq_zero_vec]
      exact normSq_nonneg v)
    (by
      intro r
      show normSq (fun _ => (1 : ℂ)) = 1
      simp [normSq])

/-- Witness for C2 at a concrete one-parameter input. -/
theorem c2_gradient_witness :
    (targetFunc trivTarget [0]).2.length = ([0] : List ℝ).length
    ∧ ∀ j, j < ([0] : List ℝ).length →
        (targetFunc trivTarget [0]).2.getD j 0
          = 2 * scale trivTarget * ∑ r : Fin (trivTarget.nd + 1),
              (cinner (op_proj trivTarget [0] r)
                ((bras trivTarget r).mulVec
                  (((trivTarget.seq.d_op [0]).getD j 0).mulVec (trivTarget.states r)))).re :=
  c2_gradient_components trivTarget [0] rfl

/-- Claim C3: under the QR contract (`Q` with orthonormal columns, `R`
upper triangular, `basisMatrix values = Q * R`) and a nonzero leading
amplitude, `orthonormal_basis` returns exactly `k = m + 1` vectors that
are pairwise orthogonal (inner-product magnitude below `1e-8`) and
unit-norm (norm within `1e-8` of `1`), with vector 0 equal to the
normalized target up to a global phase. -/
theorem c3_orthonormal_basis_qr {m : ℕ} (values : Fin (m + 1) → ℂ)
    (Q R : Matrix (Fin (m + 1)) (Fin (m + 1)) ℂ)
    (hQR : basisMatrix values = Q * R)
    (hQ : Q.conjTranspose * Q = 1)
    (hR : ∀ i j : Fin (m + 1), (j : ℕ) < (i : ℕ) → R i j = 0)
    (hv0 : values 0 ≠ 0) :
    (orthonormal_basis_out Q).length = m + 1
    ∧ (∀ r s : Fin (m + 1), r ≠ s →
        Complex.abs (cinner (orthonormal_basis_vec Q r) (orthonormal_basis_vec Q s))
          < 1e-8)
    ∧ (∀ r, |Real.sqrt (normSq (orthonormal_basis_vec Q r)) - 1| < 1e-8)
    ∧ (∃ c : ℂ, Complex.abs c = 1
        ∧ ∀ i, orthonormal_basis_vec Q 0 i
            = c * (values i / (Real.sqrt (normSq values) : ℂ))) := by
  refine ⟨?_, ?_, ?_, ?_⟩
  · simp [orthonormal_basis_out]
  · intro r s hrs
    rw [vec_cinner, qcols_orthonormal Q hQ r s, if_neg hrs]
    simp only [map_zero]
    norm_num
  · intro r
    have h1 : normSq (orthonormal_basis_vec Q r) = 1 := by
      rw [← cinner_self_re, vec_cinner, qcols_orthonormal Q hQ r r, if_pos rfl,
        Complex.one_re]
    rw [h1, Real.sqrt_one]
    norm_num
  · have hR00 : R 0 0 ≠ 0 := R00_ne_zero values Q R hQR hR hv0
    have ha : Complex.abs (R 0 0) ≠ 0 := by
      simpa using hR00
    have hsqrt : Real.sqrt (normSq values) = Complex.abs (R 0 0) := by
      rw [normSq_values_eq values Q R hQR hQ hR, ← Complex.abs_apply]
    refine ⟨-(Complex.abs (R 0 0) : ℂ) / R 0 0, ?_, ?_⟩
    · rw [map_div₀, AbsoluteValue.map_neg]
      rw [Complex.abs_ofReal, abs_of_nonneg (AbsoluteValue.nonneg _ _)]
      exact div_self ha
    · intro i
      have hQi : Q i 0 = values i / R 0 0 := by
        rw [col0_eq values Q R hQR hR i]
        field_simp
      show -(Q i 0) = _
      rw [hQi, hsqrt]
      have haC : ((Complex.abs (R 0 0) : ℝ) : ℂ) ≠ 0 := by
        exact_mod_cast ha
      field_simp
      ring

/-- Witness for C3 at the one-label target with `Q = R = 1`. -/
theorem c3_orthonormal_basis_qr_witness :
    (orthonormal_basis_out (1 : Matrix (Fin 1) (Fin 1) ℂ)).length = 0 + 1
    ∧ (∀ r s : Fin 1, r ≠ s →
        Complex.abs (cinner (orthonormal_basis_vec (1 : Matrix (Fin 1) (Fin 1) ℂ) r)
          (orthonormal_basis_vec (1 : Matrix (Fin 1) (Fin 1) ℂ) s)) < 1e-8)
    ∧ (∀ r : Fin 1,
        |Real.sqrt (normSq (orthonormal_basis_vec (1 : Matrix (Fin 1) (Fin 1) ℂ) r)) - 1|
          < 1e-8)
    ∧ (∃ c : ℂ, Complex.abs c = 1
        ∧ ∀ i, orthonormal_basis_vec (1 : Matrix (Fin 1) (Fin 1) ℂ) 0 i
            = c * ((fun _ : Fin 1 => (1 : ℂ)) i
                / (Real.sqrt (normSq (fun _ : Fin 1 => (1 : ℂ))) : ℂ))) :=
  c3_orthonormal_basis_qr (fun _ => 1) 1 1
    (by
      ext i j
      fin_cases i
      fin_cases j
      simp [basisMatrix, Matrix.mul_apply])
    (by simp)
    (by
      intro i j h
      have h1 := i.isLt
      have h2 := j.isLt
      omega)
    one_ne_zero

end ProjSearch
